import Mathlib

/-!
Verification development for the MultiVerse log/store engine.

The definitions below are a shallow embedding of the TypeScript sources:
  * `src/src/model/types.ts`   — block model and operation payloads
  * `src/src/model/store.ts`   — the `Store` class (append, linearizer, projections)
  * `src/index.ts`             — the replication procedure `processUserline`
  * the `EthereumVerifier.verify` wrapper

Conventions of the embedding:
  * The JavaScript `Map<string, Block>` is modelled as an insertion-ordered
    association list `List (String × Block)`; `Map.set` on an existing key
    keeps the original position of the entry and replaces its value.
  * `block.previous.toString()` is modelled as a `String`, with the empty
    string denoting the root sentinel (absent parent).
  * The mock content identifier the store generates on every append,
    the template string of `Date.now()` and `Math.random()` from
    store.ts line 52, is modelled by `mkCid now rand`: the wall clock
    reading and the random suffix are explicit oracle arguments of
    `addBlock`, since the embedding is deterministic.
  * Thrown exceptions are modelled with `Except`.
  * The recursive traversal `buildOrderedChain` is given an explicit fuel
    argument; `getBlockChain` passes fuel `blocks.length + 1`, which is
    exact for every acyclic parent graph (a depth-first path can visit each
    stored key at most once).  The TypeScript recursion is unbounded and
    diverges on a cyclic parent graph; no theorem below depends on the
    value the model returns in that situation beyond what the root
    traversal reaches.
-/

namespace MultiVerse

/-- Profile operations, from `Profile.Operation` in types.ts. -/
inductive ProfileOp where
  | setUsername (username : String)
  | setBio (bio : String)
  | setAvatar (avatar : String)
  | addFollowing (followingId : String)
  | removeFollowing (followingId : String)
deriving DecidableEq, Repr

/-- Timeline operations, from `Timeline.Operation` in types.ts. -/
inductive TimelineOp where
  | addNote (noteCid : String)
  | removeNote (noteCid : String)
deriving DecidableEq, Repr

/-- The `type` discriminator together with the `data` payload of a block.
The TypeScript block carries `type : BlockType` and `data : any`; in every
block the repository constructs, the payload constructor determines the
block type, so the two fields are fused here. -/
inductive BlockData where
  | profile (op : ProfileOp)
  | timeline (op : TimelineOp)
deriving DecidableEq, Repr

/-- `Core.Block` from types.ts.  `previous` is the string form of the causal
pointer, `""` denoting a root block. -/
structure Block where
  previous : String
  timestamp : Int
  operator : String
  signature : String
  data : BlockData
deriving DecidableEq, Repr

/-- The canonical unsigned form handed to the verifier: the block without
its `signature` field (store.ts, `verifyBlockSignature`). -/
structure UnsignedBlock where
  previous : String
  timestamp : Int
  operator : String
  data : BlockData
deriving DecidableEq, Repr

/-- Drop the signature field (the object literal built in
`verifyBlockSignature`). -/
def Block.unsigned (b : Block) : UnsignedBlock :=
  ⟨b.previous, b.timestamp, b.operator, b.data⟩

/-- The `Verifier` interface of store.ts: `verify(data, signature, publicKey)`.
The embedding treats it as a pure boolean predicate. -/
def Verifier : Type := UnsignedBlock → String → String → Bool

/-- Insertion-ordered association-list model of the JavaScript `Map`:
membership test (`Map.has`). -/
def mapHas {α : Type} (m : List (String × α)) (k : String) : Bool :=
  m.any (fun e => e.1 == k)

/-- `Map.get`: first entry with the key (keys are unique in a real `Map`). -/
def mapGet {α : Type} (m : List (String × α)) (k : String) : Option α :=
  (m.find? (fun e => e.1 == k)).map (·.2)

/-- `Map.set`: replace in place when the key exists, append otherwise. -/
def mapSet {α : Type} (m : List (String × α)) (k : String) (v : α) :
    List (String × α) :=
  if mapHas m k then m.map (fun e => if e.1 == k then (k, v) else e)
  else m ++ [(k, v)]

/-- Key list of an association list. -/
def keys {α : Type} (m : List (String × α)) : List String := m.map (·.1)

/-- The `Store` class state: verifier, block map, head pointer, owner. -/
structure Store where
  verifier : Verifier
  blocks : List (String × Block)
  headCid : Option String
  operatorId : String

/-- A freshly constructed store (the class field initialisers plus the
constructor of store.ts). -/
def Store.init (v : Verifier) (operatorId : String) : Store :=
  ⟨v, [], none, operatorId⟩

/-- The mock content identifier generated at store.ts line 52:
`block_${Date.now()}_${Math.random().toString(36).substring(2, 9)}`. -/
def mkCid (now : Nat) (rand : String) : String :=
  "block_" ++ toString now ++ "_" ++ rand

/-- The exceptions `addBlock` can throw, in the order the checks occur. -/
inductive AddErr where
  | operatorMismatch (blockOperator expected : String)
  | previousNotFound (previous : String)
  | invalidSignature
deriving DecidableEq, Repr

/-- `Store.addBlock` from store.ts lines 31-61.  `now` and `rand` are the
oracle inputs of the mock identifier generation. -/
def addBlock (st : Store) (now : Nat) (rand : String) (b : Block) :
    Except AddErr Store :=
  if b.operator != st.operatorId then
    .error (.operatorMismatch b.operator st.operatorId)
  else
    let previousCid := b.previous
    if previousCid != "" && !(mapHas st.blocks previousCid) then
      .error (.previousNotFound previousCid)
    else if !(st.verifier b.unsigned b.signature b.operator) then
      .error .invalidSignature
    else
      let blockCid := mkCid now rand
      .ok { st with blocks := mapSet st.blocks blockCid b,
                    headCid := some blockCid }

/-- Add the key to the children map with an empty list when absent
(the two `if (!childrenMap.has(...))` guards of `getBlockChain`). -/
def ensureKey (m : List (String × List String)) (k : String) :
    List (String × List String) :=
  if mapHas m k then m else m ++ [(k, [])]

/-- `childrenMap.get(prevCid)?.push(blockCid)`: append the child to the
entry in place. -/
def pushChild (m : List (String × List String)) (k c : String) :
    List (String × List String) :=
  m.map (fun e => if e.1 == k then (e.1, e.2 ++ [c]) else e)

/-- The children map built by `getBlockChain` (store.ts lines 230-254),
starting from the root sentinel entry and processing the block map in
insertion order. -/
def buildChildrenMap (blocks : List (String × Block)) :
    List (String × List String) :=
  blocks.foldl
    (fun m e => pushChild (ensureKey (ensureKey m e.1) e.2.previous)
      e.2.previous e.1)
    [("", [])]

/-- The comparator of `buildOrderedChain`: look both identifiers up in the
block map and subtract timestamps, `0` when a lookup fails. -/
def cmpTs (blocks : List (String × Block)) (a b : String) : Int :=
  match mapGet blocks a, mapGet blocks b with
  | some x, some y => x.timestamp - y.timestamp
  | _, _ => 0

/-- Stable insertion of one identifier into an already sorted list: the new
element goes after every element it does not strictly precede.  This is the
behaviour of the (stable) `Array.prototype.sort` with the comparator
`cmpTs`. -/
def insertSorted (blocks : List (String × Block)) (c : String) :
    List String → List String
  | [] => [c]
  | d :: ds =>
    if cmpTs blocks c d < 0 then c :: d :: ds else d :: insertSorted blocks c ds

/-- Stable sort of the sibling list by ascending timestamp
(`[...blockCids].sort(...)` in `buildOrderedChain`). -/
def sortByTimestamp (blocks : List (String × Block)) (l : List String) :
    List String :=
  l.foldl (fun acc c => insertSorted blocks c acc) []

/-- `buildOrderedChain` (store.ts lines 269-297), returning the `{block, cid}`
entries of the blockMap in emission order.  The fuel bounds the recursion
depth, see the module comment. -/
def buildOrderedChain (blocks : List (String × Block))
    (cmap : List (String × List String)) :
    Nat → List String → List (String × Block)
  | 0, _ => []
  | fuel + 1, cids =>
    (sortByTimestamp blocks cids).flatMap (fun c =>
      match mapGet blocks c with
      | none => []
      | some b =>
        (c, b) :: buildOrderedChain blocks cmap fuel ((mapGet cmap c).getD []))

/-- `getBlockChain` (store.ts lines 218-264) at the granularity of map
entries.  The head test models the JavaScript truthiness check
`!this.headCid` (both `null` and the empty string are falsy). -/
def getBlockChainEntries (st : Store) : List (String × Block) :=
  match st.headCid with
  | none => []
  | some h =>
    if h == "" || st.blocks.length == 0 then []
    else
      let cmap := buildChildrenMap st.blocks
      let rootChildren := (mapGet cmap "").getD []
      buildOrderedChain st.blocks cmap (st.blocks.length + 1) rootChildren

/-- `getBlockChain`: the emitted blocks (the code pushes `blockInfo.block`). -/
def getBlockChain (st : Store) : List Block :=
  (getBlockChainEntries st).map (·.2)

/-- The error thrown by both projections when the store has no head. -/
inductive GetErr where
  | noBlocks
deriving DecidableEq, Repr

/-- `Profile.State` from types.ts. -/
structure ProfileState where
  username : String
  bio : String
  avatar : Option String
  following : List String
deriving DecidableEq, Repr

/-- `applyProfileOperation` (store.ts lines 123-154). -/
def applyProfileOperation (state : ProfileState) (operation : ProfileOp) :
    ProfileState :=
  match operation with
  | .setUsername u => { state with username := u }
  | .setBio b => { state with bio := b }
  | .setAvatar a => { state with avatar := some a }
  | .addFollowing f =>
    if state.following.contains f then state
    else { state with following := state.following ++ [f] }
  | .removeFollowing f =>
    { state with following := state.following.filter (fun i => i != f) }

/-- `getProfileState` (store.ts lines 90-115): head check, then a left fold
of the chain restricted to PROFILE blocks over the default state. -/
def getProfileState (st : Store) : Except GetErr ProfileState :=
  match st.headCid with
  | none => .error .noBlocks
  | some h =>
    if h == "" then .error .noBlocks
    else
      .ok ((getBlockChain st).foldl
        (fun s b =>
          match b.data with
          | .profile op => applyProfileOperation s op
          | .timeline _ => s)
        ⟨"", "", none, []⟩)

/-- `Timeline.State` from types.ts. -/
structure TimelineState where
  notes : List String
deriving DecidableEq, Repr

/-- `applyTimelineOperation` (store.ts lines 191-212). -/
def applyTimelineOperation (state : TimelineState) (operation : TimelineOp) :
    TimelineState :=
  match operation with
  | .addNote n =>
    if state.notes.any (fun c => c == n) then state
    else { state with notes := state.notes ++ [n] }
  | .removeNote n =>
    { notes := state.notes.filter (fun c => c != n) }

/-- `getTimelineState` (store.ts lines 160-183). -/
def getTimelineState (st : Store) : Except GetErr TimelineState :=
  match st.headCid with
  | none => .error .noBlocks
  | some h =>
    if h == "" then .error .noBlocks
    else
      .ok ((getBlockChain st).foldl
        (fun s b =>
          match b.data with
          | .profile _ => s
          | .timeline op => applyTimelineOperation s op)
        ⟨[]⟩)

/-- Failures of the replication walk in index.ts: a blob-store fetch that
throws, an `addBlock` that throws, or exhausted fuel (the TypeScript
recursion is unbounded; every theorem below supplies enough fuel). -/
inductive SyncErr where
  | fetchFailed (cid : String)
  | addFailed (e : AddErr)
  | outOfFuel
deriving DecidableEq, Repr

/-- The inner `processBlock` of `processUserline` (index.ts lines 150-171).
`blob` models the content-addressable store (`client.cat` plus JSON
decoding; a missing entry is a fetch failure).  `gens` supplies the
`(Date.now, random)` oracle consumed by each `addBlock` call; the extra
`blockCid` argument the caller passes to `addBlock` is ignored, exactly as
the one-parameter method ignores it.  The second component is the
`visited` set, which the code mutates before fetching. -/
def processBlock (blob : List (String × Block)) :
    Nat → List (Nat × String) → Store → List String → String →
      Except SyncErr Store × List String
  | 0, _, _, visited, _ => (.error .outOfFuel, visited)
  | fuel + 1, gens, st, visited, blockCid =>
    if visited.contains blockCid then (.ok st, visited)
    else
      let visited := visited ++ [blockCid]
      match mapGet blob blockCid with
      | none => (.error (.fetchFailed blockCid), visited)
      | some block =>
        match gens with
        | [] => (.error .outOfFuel, visited)
        | g :: gens =>
          match addBlock st g.1 g.2 block with
          | .error e => (.error (.addFailed e), visited)
          | .ok st =>
            if block.previous != "" then
              processBlock blob fuel gens st visited block.previous
            else (.ok st, visited)

/-- `processUserline` (index.ts lines 147-175): fresh visited set, then the
recursive walk from the announced latest identifier. -/
def processUserline (blob : List (String × Block)) (fuel : Nat)
    (gens : List (Nat × String)) (st : Store) (latestBlockCid : String) :
    Except SyncErr Store × List String :=
  processBlock blob fuel gens st [] latestBlockCid

/-- Character-wise lowercasing, the model of `String.prototype.toLowerCase`
on ASCII hex identifiers. -/
def strLower (s : String) : String := ⟨s.data.map Char.toLower⟩

/-- `EthereumVerifier.verify`.  The call into `ethers.verifyMessage` is the
single external primitive: it is abstracted as `recover`, which returns the
recovered signer address, or `none` when the library throws.  The
surrounding `try`/`catch` maps every exception to `false`; the function
itself is total and never throws.  `data` is the serialized message string
(the `JSON.stringify`/`String` step applied by the method). -/
def EthereumVerifier.verify (recover : String → String → Option String)
    (data signature address : String) : Bool :=
  match recover data signature with
  | some recoveredAddress => strLower recoveredAddress == strLower address
  | none => false

/-- Specification-side stable insertion by ascending timestamp, used by the
reference linearizer below.  Works directly on map entries. -/
def specInsert (e : String × Block) :
    List (String × Block) → List (String × Block)
  | [] => [e]
  | d :: ds =>
    if e.2.timestamp < d.2.timestamp then e :: d :: ds
    else d :: specInsert e ds

/-- Specification-side stable sort of a sibling list by ascending
timestamp, ties keeping the original order. -/
def specSortSiblings (l : List (String × Block)) : List (String × Block) :=
  l.foldl (fun acc e => specInsert e acc) []

/-- Reference linearizer, following the words of the specification: a
depth-first, parent-before-children traversal in which every sibling set
(the entries naming `parent` in their `previous` field, in insertion
order) is stably sorted by ascending timestamp before any subtree is
descended into.  The fuel bounds the recursion depth. -/
def specDFS (blocks : List (String × Block)) :
    Nat → String → List (String × Block)
  | 0, _ => []
  | fuel + 1, parent =>
    (specSortSiblings (blocks.filter (fun e => e.2.previous == parent))).flatMap
      (fun e => e :: specDFS blocks fuel e.1)

/-- The deterministic line of the specification: the traversal started from
the children of the root sentinel. -/
def specLine (blocks : List (String × Block)) : List Block :=
  (specDFS blocks (blocks.length + 1) "").map (·.2)

/-- Store states reachable from a fresh store by successful `addBlock`
calls, with arbitrary generator oracle outcomes. -/
inductive Reachable : Store → Prop
  | init (v : Verifier) (oid : String) : Reachable (Store.init v oid)
  | step {st : Store} {now : Nat} {rand : String} {b : Block} {st' : Store} :
      Reachable st → addBlock st now rand b = .ok st' → Reachable st'

/-- Store states reachable by successful `addBlock` calls in which every
generated identifier is fresh, i.e. never collides with a key already in
the block map.  This is the intended behaviour of the wall-clock plus
randomness identifier of store.ts line 52. -/
inductive ReachableF : Store → Prop
  | init (v : Verifier) (oid : String) : ReachableF (Store.init v oid)
  | step {st : Store} {now : Nat} {rand : String} {b : Block} {st' : Store} :
      ReachableF st → mkCid now rand ∉ keys st.blocks →
      addBlock st now rand b = .ok st' → ReachableF st'

/-- Block maps in which every entry was appended with a fresh, nonempty key
and a parent already present: the shape `ReachableF` produces. -/
inductive Grounded : List (String × Block) → Prop
  | nil : Grounded []
  | snoc {l : List (String × Block)} {k : String} {b : Block} :
      Grounded l → (b.previous = "" ∨ b.previous ∈ keys l) →
      k ∉ keys l → k ≠ "" → Grounded (l ++ [(k, b)])

/-- A verifier accepting everything, used for concrete executions. -/
def vTrue : Verifier := fun _ _ _ => true

/-- Key list of the empty map. -/
@[simp] theorem keys_nil {α : Type} : keys ([] : List (String × α)) = [] := rfl

/-- Key list of a cons cell. -/
@[simp] theorem keys_cons {α : Type} (e : String × α) (t : List (String × α)) :
    keys (e :: t) = e.1 :: keys t := rfl

/-- Key list of an appended map. -/
@[simp] theorem keys_append {α : Type} (l r : List (String × α)) :
    keys (l ++ r) = keys l ++ keys r := List.map_append _ l r

/-- Unfolding of `Map.has` on a cons cell. -/
@[simp] theorem mapHas_cons {α : Type} (e : String × α) (t : List (String × α))
    (k : String) : mapHas (e :: t) k = (e.1 == k || mapHas t k) := by
  simp [mapHas]

/-- `Map.has` on the empty map. -/
@[simp] theorem mapHas_nil {α : Type} (k : String) :
    mapHas ([] : List (String × α)) k = false := rfl

/-- Unfolding of `Map.get` on a cons cell. -/
theorem mapGet_cons {α : Type} (e : String × α) (t : List (String × α))
    (k : String) :
    mapGet (e :: t) k = if e.1 == k then some e.2 else mapGet t k := by
  cases h : (e.1 == k) <;> simp [mapGet, List.find?_cons, h]

/-- `Map.get` on the empty map. -/
@[simp] theorem mapGet_nil {α : Type} (k : String) :
    mapGet ([] : List (String × α)) k = none := rfl

/-- Membership form of `Map.has`. -/
theorem mapHas_iff_mem {α : Type} (m : List (String × α)) (k : String) :
    mapHas m k = true ↔ k ∈ keys m := by
  induction m with
  | nil => simp
  | cons e t ih =>
    simp only [mapHas_cons, Bool.or_eq_true, beq_iff_eq, ih, keys_cons,
      List.mem_cons]
    constructor
    · rintro (h | h)
      exacts [Or.inl h.symm, Or.inr h]
    · rintro (h | h)
      exacts [Or.inl h.symm, Or.inr h]

/-- Negative membership form of `Map.has`. -/
theorem mapHas_eq_false {α : Type} (m : List (String × α)) (k : String) :
    mapHas m k = false ↔ k ∉ keys m := by
  rw [← Bool.not_eq_true, not_iff_not]
  exact mapHas_iff_mem m k

/-- A lookup of an absent key fails. -/
theorem mapGet_eq_none {α : Type} {m : List (String × α)} {k : String}
    (h : k ∉ keys m) : mapGet m k = none := by
  induction m with
  | nil => rfl
  | cons e t ih =>
    have h1 : ¬(e.1 = k) := fun he => h (by simp [he])
    have h2 : k ∉ keys t := fun ht => h (by simp [ht])
    rw [mapGet_cons, if_neg (by simpa using h1)]
    exact ih h2

/-- With unique keys, looking an entry up returns its value. -/
theorem mapGet_of_nodup {α : Type} {m : List (String × α)}
    (hnd : (keys m).Nodup) {e : String × α} (he : e ∈ m) :
    mapGet m e.1 = some e.2 := by
  induction m with
  | nil => cases he
  | cons d t ih =>
    rcases List.mem_cons.mp he with rfl | ht
    · simp [mapGet_cons]
    · have hnd' : (keys t).Nodup := (List.nodup_cons.mp hnd).2
      have hd : d.1 ∉ keys t := (List.nodup_cons.mp hnd).1
      have hne : ¬(d.1 = e.1) := fun hcontra => by
        exact hd (hcontra ▸ (by simpa [keys] using List.mem_map_of_mem (·.1) ht))
      rw [mapGet_cons, if_neg (by simpa using hne)]
      exact ih hnd' ht

/-- `Map.set` on an absent key appends the entry. -/
theorem mapSet_of_not_has {α : Type} {m : List (String × α)} {k : String}
    (h : mapHas m k = false) (v : α) : mapSet m k v = m ++ [(k, v)] := by
  simp [mapSet, h]

/-- The length of a `Map.set` result. -/
theorem length_mapSet {α : Type} (m : List (String × α)) (k : String) (v : α) :
    (mapSet m k v).length =
      if mapHas m k then m.length else m.length + 1 := by
  by_cases h : mapHas m k <;> simp [mapSet, h]

/-- `Map.set` never produces the empty map. -/
theorem mapSet_ne_nil {α : Type} (m : List (String × α)) (k : String) (v : α) :
    mapSet m k v ≠ [] := by
  intro hcontra
  cases hm : mapHas m k with
  | false => rw [mapSet, hm] at hcontra; simp at hcontra
  | true =>
    rw [mapSet, if_pos hm] at hcontra
    rw [List.map_eq_nil_iff.mp hcontra] at hm
    simp at hm

/-- Generated identifiers are never the empty string. -/
theorem mkCid_ne_empty (now : Nat) (rand : String) : mkCid now rand ≠ "" := by
  intro h
  have hlen := congrArg String.length h
  simp [mkCid, String.length_append] at hlen
  exact absurd hlen.1.1.1 (by decide)

/-- Inversion of a successful `addBlock`: all three checks passed and the
resulting state is the input state with the new entry and head. -/
theorem addBlock_ok_inv {st : Store} {now : Nat} {rand : String} {b : Block}
    {st' : Store} (h : addBlock st now rand b = .ok st') :
    b.operator = st.operatorId ∧
    (b.previous = "" ∨ mapHas st.blocks b.previous = true) ∧
    st.verifier b.unsigned b.signature b.operator = true ∧
    st' = { st with blocks := mapSet st.blocks (mkCid now rand) b,
                    headCid := some (mkCid now rand) } := by
  unfold addBlock at h
  by_cases h1 : (b.operator != st.operatorId) = true
  · rw [if_pos h1] at h; exact absurd h (by simp)
  · rw [if_neg h1] at h
    rw [bne_iff_ne, ne_eq, not_not] at h1
    by_cases h2 : (b.previous != "" && !(mapHas st.blocks b.previous)) = true
    · rw [if_pos h2] at h; exact absurd h (by simp)
    · rw [if_neg h2] at h
      by_cases h3 : (!(st.verifier b.unsigned b.signature b.operator)) = true
      · rw [if_pos h3] at h; exact absurd h (by simp)
      · rw [if_neg h3] at h
        have h2' : b.previous = "" ∨ mapHas st.blocks b.previous = true := by
          by_cases hp : b.previous = ""
          · exact Or.inl hp
          · cases hmb : mapHas st.blocks b.previous with
            | true => exact Or.inr rfl
            | false => exact absurd (by simp [bne_iff_ne, hp, hmb]) h2
        have h3' : st.verifier b.unsigned b.signature b.operator = true := by
          simpa using h3
        refine ⟨h1, h2', h3', ?_⟩
        injection h with h4
        exact h4.symm

/-- Shape invariant of reachable stores: either the store is empty with no
head, or the head is a generated identifier and the block map is nonempty. -/
theorem reachable_shape {st : Store} (h : Reachable st) :
    (st.headCid = none ∧ st.blocks = []) ∨
    ((∃ t r, st.headCid = some (mkCid t r)) ∧ st.blocks ≠ []) := by
  induction h with
  | init v oid => exact Or.inl ⟨rfl, rfl⟩
  | @step st now rand b st' _ hok _ =>
    rcases addBlock_ok_inv hok with ⟨_, _, _, hst⟩
    refine Or.inr ⟨⟨now, rand, by rw [hst]⟩, ?_⟩
    rw [hst]
    exact mapSet_ne_nil _ _ _

/-- Every store reachable with fresh identifiers is reachable. -/
theorem ReachableF.toReachable {st : Store} (h : ReachableF st) :
    Reachable st := by
  induction h with
  | init v oid => exact Reachable.init v oid
  | step _ _ hok ih => exact Reachable.step ih hok

/-- The block map of a store reached with fresh identifiers is grounded. -/
theorem reachF_grounded {st : Store} (h : ReachableF st) :
    Grounded st.blocks := by
  induction h with
  | init v oid => exact Grounded.nil
  | @step st now rand b st' _ hfresh hok ih =>
    rcases addBlock_ok_inv hok with ⟨_, hprev, _, hst⟩
    have hhas : mapHas st.blocks (mkCid now rand) = false :=
      (mapHas_eq_false _ _).mpr hfresh
    rw [hst, mapSet_of_not_has hhas]
    refine Grounded.snoc ih ?_ hfresh (mkCid_ne_empty now rand)
    rcases hprev with hprev | hprev
    · exact Or.inl hprev
    · exact Or.inr ((mapHas_iff_mem _ _).mp hprev)

/-- Grounded maps have pairwise distinct keys. -/
theorem Grounded.nodupKeys {l : List (String × Block)} (h : Grounded l) :
    (keys l).Nodup := by
  induction h with
  | nil => exact List.nodup_nil
  | @snoc l k b _ _ hk _ ih =>
    rw [keys_append]
    refine List.Nodup.append ih (List.nodup_singleton k) ?_
    intro a ha hak
    rw [keys_cons, keys_nil, List.mem_singleton] at hak
    subst hak
    exact hk ha

/-- The empty string is never a key of a grounded map. -/
theorem Grounded.empty_not_key {l : List (String × Block)} (h : Grounded l) :
    "" ∉ keys l := by
  induction h with
  | nil => simp
  | @snoc l k b _ _ _ hk ih =>
    rw [keys_append]
    simp only [List.mem_append, keys_cons, keys_nil, List.mem_singleton]
    rintro (hc | hc)
    · exact ih hc
    · exact hk hc.symm

/-- Every parent pointer of a grounded map is the root sentinel or a key of
the map. -/
theorem Grounded.prev_closed {l : List (String × Block)} (h : Grounded l) :
    ∀ e ∈ l, e.2.previous = "" ∨ e.2.previous ∈ keys l := by
  induction h with
  | nil => intro e he; cases he
  | @snoc l k b _ hb _ _ ih =>
    intro e he
    rcases List.mem_append.mp he with he | he
    · rcases ih e he with hp | hp
      · exact Or.inl hp
      · exact Or.inr (by rw [keys_append]; exact List.mem_append_left _ hp)
    · rcases List.mem_singleton.mp he with rfl
      rcases hb with hp | hp
      · exact Or.inl hp
      · exact Or.inr (by rw [keys_append]; exact List.mem_append_left _ hp)

/-- No parent pointer of a grounded extension refers to the newly appended
fresh key. -/
theorem prev_ne_new {l : List (String × Block)} {k : String} {b : Block}
    (hl : Grounded l) (hb : b.previous = "" ∨ b.previous ∈ keys l)
    (hk : k ∉ keys l) (hke : k ≠ "") :
    ∀ e ∈ l ++ [(k, b)], e.2.previous ≠ k := by
  intro e he hprev
  have hcl : e.2.previous = "" ∨ e.2.previous ∈ keys l := by
    rcases List.mem_append.mp he with he | he
    · exact hl.prev_closed e he
    · rcases List.mem_singleton.mp he with rfl
      exact hb
  rcases hcl with hp | hp
  · exact hke (hprev.symm.trans hp)
  · exact hk (hprev ▸ hp)

/-- Stable insertion is a permutation of pushing in front. -/
theorem specInsert_perm (e : String × Block) (l : List (String × Block)) :
    (specInsert e l).Perm (e :: l) := by
  induction l with
  | nil => exact List.Perm.refl _
  | cons d ds ih =>
    rw [specInsert]
    by_cases h : e.2.timestamp < d.2.timestamp
    · rw [if_pos h]
    · rw [if_neg h]
      exact (ih.cons d).trans (List.Perm.swap e d ds)

/-- The insertion fold underlying the stable sort is a permutation. -/
theorem foldl_specInsert_perm (l acc : List (String × Block)) :
    (l.foldl (fun a e => specInsert e a) acc).Perm (l ++ acc) := by
  induction l generalizing acc with
  | nil => simp
  | cons e t ih =>
    rw [List.foldl_cons, List.cons_append]
    refine (ih (specInsert e acc)).trans ?_
    refine (List.Perm.append_left t (specInsert_perm e acc)).trans ?_
    exact List.perm_middle

/-- The specification sibling sort is a permutation. -/
theorem specSortSiblings_perm (l : List (String × Block)) :
    (specSortSiblings l).Perm l := by
  simpa using foldl_specInsert_perm l []

/-- Splitting a flat map whose body is an append. -/
theorem flatMap_append_distrib_perm {α β : Type} (l : List α)
    (f g : α → List β) :
    (l.flatMap fun a => f a ++ g a).Perm (l.flatMap f ++ l.flatMap g) := by
  induction l with
  | nil => simp
  | cons a t ih =>
    rw [List.flatMap_cons, List.flatMap_cons, List.flatMap_cons]
    have step1 : ((f a ++ g a) ++ t.flatMap fun x => f x ++ g x).Perm
        ((f a ++ g a) ++ (t.flatMap f ++ t.flatMap g)) :=
      List.Perm.append_left _ ih
    refine step1.trans ?_
    have step2 : (g a ++ (t.flatMap f ++ t.flatMap g)).Perm
        (t.flatMap f ++ (g a ++ t.flatMap g)) := by
      have hcomm : ((g a ++ t.flatMap f) ++ t.flatMap g).Perm
          ((t.flatMap f ++ g a) ++ t.flatMap g) :=
        List.Perm.append_right _ List.perm_append_comm
      simpa [List.append_assoc] using hcomm
    have step3 := List.Perm.append_left (f a) step2
    simpa [List.append_assoc] using step3

/-- Flat map of a one-hit key selector over a map with unique keys. -/
theorem flatMap_single_key {α β : Type} {l : List (String × α)} {q : String}
    (hnd : (keys l).Nodup) (hq : q ∈ keys l) (x : β) :
    (l.flatMap fun d => if q = d.1 then [x] else []) = [x] := by
  induction l with
  | nil => cases hq
  | cons d t ih =>
    rw [List.flatMap_cons]
    rcases List.mem_cons.mp hq with hq | hq
    · rw [if_pos hq]
      have hnot : q ∉ keys t := hq ▸ (List.nodup_cons.mp hnd).1
      have hrest : (t.flatMap fun d => if q = d.1 then [x] else []) = [] := by
        rw [List.flatMap_eq_nil_iff]
        intro e he
        rw [if_neg]
        intro hc
        refine hnot ?_
        rw [hc]
        simpa [keys] using List.mem_map_of_mem (·.1) he
      rw [hrest, List.append_nil]
    · have hne : q ≠ d.1 := by
        intro hc
        subst hc
        exact (List.nodup_cons.mp hnd).1 hq
      rw [if_neg hne, List.nil_append]
      exact ih (List.nodup_cons.mp hnd).2 hq

/-- The children list stored for a parent, empty when absent:
`childrenMap.get(cid) || []`. -/
def getCh (m : List (String × List String)) (p : String) : List String :=
  (mapGet m p).getD []

/-- Lookup in an appended association list. -/
theorem mapGet_append {α : Type} (l r : List (String × α)) (k : String) :
    mapGet (l ++ r) k =
      match mapGet l k with
      | some v => some v
      | none => mapGet r k := by
  induction l with
  | nil => simp
  | cons e t ih =>
    rw [List.cons_append, mapGet_cons, mapGet_cons]
    by_cases h : (e.1 == k) = true
    · rw [if_pos h, if_pos h]
    · rw [if_neg h, if_neg h, ih]

/-- `ensureKey` never changes a stored children list. -/
theorem getCh_ensureKey (m : List (String × List String)) (k p : String) :
    getCh (ensureKey m k) p = getCh m p := by
  rw [ensureKey]
  by_cases h : mapHas m k
  · rw [if_pos h]
  · rw [if_neg h, getCh, getCh, mapGet_append]
    cases hm : mapGet m p with
    | some v => rfl
    | none =>
      rw [mapGet_cons]
      by_cases hk : (k = p)
      · rw [if_pos (beq_iff_eq.mpr hk)]; rfl
      · rw [if_neg (by simpa using hk)]; rfl

/-- `ensureKey` makes its key present. -/
theorem mapHas_ensureKey_self (m : List (String × List String)) (k : String) :
    mapHas (ensureKey m k) k = true := by
  rw [ensureKey]
  by_cases h : mapHas m k
  · rw [if_pos h]; exact h
  · rw [if_neg h]
    simp [mapHas, List.any_append]

/-- `ensureKey` preserves present keys. -/
theorem mapHas_ensureKey_mono {m : List (String × List String)} {j : String}
    (h : mapHas m j = true) (k : String) :
    mapHas (ensureKey m k) j = true := by
  rw [ensureKey]
  by_cases hk : mapHas m k
  · rw [if_pos hk]; exact h
  · rw [if_neg hk]
    simp only [mapHas, List.any_append, Bool.or_eq_true]
    exact Or.inl h

/-- `pushChild` leaves lists of other parents untouched. -/
theorem getCh_pushChild_ne {m : List (String × List String)} {k p : String}
    (hpk : p ≠ k) (c : String) : getCh (pushChild m k c) p = getCh m p := by
  induction m with
  | nil => rfl
  | cons e t ih =>
    rw [pushChild, List.map_cons]
    by_cases hek : (e.1 == k) = true
    · rw [if_pos hek, getCh, mapGet_cons]
      have hep : ((e.1 : String) == p) = false := by
        refine beq_eq_false_iff_ne.mpr ?_
        intro hc
        exact hpk ((hc ▸ (beq_iff_eq.mp hek) : (p : String) = k))
      rw [if_neg (by simp [hep])]
      rw [getCh, mapGet_cons, if_neg (by simp [hep])]
      exact ih
    · rw [if_neg hek, getCh, mapGet_cons, getCh, mapGet_cons]
      by_cases hep : (e.1 == p) = true
      · rw [if_pos hep, if_pos hep]
      · rw [if_neg hep, if_neg hep]
        exact ih

/-- `pushChild` appends the child to the list of its parent. -/
theorem getCh_pushChild_self {m : List (String × List String)} {k : String}
    (h : mapHas m k = true) (c : String) :
    getCh (pushChild m k c) k = getCh m k ++ [c] := by
  induction m with
  | nil => simp [mapHas] at h
  | cons e t ih =>
    rw [pushChild, List.map_cons]
    by_cases hek : (e.1 == k) = true
    · rw [if_pos hek, getCh, mapGet_cons]
      simp only
      rw [if_pos hek, getCh, mapGet_cons, if_pos hek]
      rfl
    · rw [if_neg hek, getCh, mapGet_cons, if_neg hek, getCh, mapGet_cons,
        if_neg hek]
      have ht : mapHas t k = true := by
        have := mapHas_cons e t k ▸ h
        simpa [hek] using this
      exact ih ht

/-- `pushChild` on a present key, both cases combined. -/
theorem getCh_pushChild {m : List (String × List String)} {k : String}
    (h : mapHas m k = true) (c p : String) :
    getCh (pushChild m k c) p = getCh m p ++ (if k = p then [c] else []) := by
  by_cases hp : p = k
  · subst hp
    rw [if_pos rfl, getCh_pushChild_self h c]
  · rw [if_neg (fun hc => hp hc.symm), List.append_nil]
    exact getCh_pushChild_ne hp c

/-- One step of the children-map fold adds exactly the processed entry to
the list of its parent. -/
theorem getCh_fold_step (m : List (String × List String))
    (e : String × Block) (p : String) :
    getCh (pushChild (ensureKey (ensureKey m e.1) e.2.previous)
        e.2.previous e.1) p =
      getCh m p ++ (if e.2.previous = p then [e.1] else []) := by
  have hhas : mapHas (ensureKey (ensureKey m e.1) e.2.previous)
      e.2.previous = true := mapHas_ensureKey_self _ _
  rw [getCh_pushChild hhas, getCh_ensureKey, getCh_ensureKey]

/-- The children-map fold accumulates, per parent, the keys of the entries
naming it, in processing order. -/
theorem getCh_fold (p : String) :
    ∀ (l : List (String × Block)) (m : List (String × List String)),
      getCh (l.foldl (fun m e =>
          pushChild (ensureKey (ensureKey m e.1) e.2.previous)
            e.2.previous e.1) m) p =
        getCh m p ++ (l.filter (fun e => e.2.previous == p)).map (·.1)
  | [], m => by simp
  | e :: t, m => by
    rw [List.foldl_cons, getCh_fold p t, getCh_fold_step]
    by_cases hp : e.2.previous = p
    · rw [if_pos hp, List.filter_cons_of_pos (by simpa using hp),
        List.map_cons, List.append_assoc]
      rfl
    · rw [if_neg hp, List.filter_cons_of_neg (by simpa using hp),
        List.append_nil]

/-- The children map of `getBlockChain` stores, for every parent, exactly
the keys of the blocks naming it in `previous`, in insertion order. -/
theorem getCh_buildChildrenMap (blocks : List (String × Block)) (p : String) :
    getCh (buildChildrenMap blocks) p =
      (blocks.filter (fun e => e.2.previous == p)).map (·.1) := by
  rw [buildChildrenMap, getCh_fold]
  have hinit : getCh [("", ([] : List String))] p = [] := by
    rw [getCh, mapGet_cons]
    by_cases h : (("" : String) == p) = true
    · rw [if_pos h]; rfl
    · rw [if_neg h]; rfl
  rw [hinit, List.nil_append]

/-- The comparator agrees with the timestamp difference once both lookups
succeed. -/
theorem cmpTs_of_lookups {blocks : List (String × Block)}
    {e d : String × Block} (he : mapGet blocks e.1 = some e.2)
    (hd : mapGet blocks d.1 = some d.2) :
    cmpTs blocks e.1 d.1 = e.2.timestamp - d.2.timestamp := by
  rw [cmpTs, he, hd]

/-- The identifier-level stable insertion mirrors the entry-level one when
every identifier involved looks up to its entry. -/
theorem insertSorted_comm {blocks : List (String × Block)}
    {e : String × Block} (he : mapGet blocks e.1 = some e.2) :
    ∀ (acc : List (String × Block)),
      (∀ d ∈ acc, mapGet blocks d.1 = some d.2) →
      insertSorted blocks e.1 (acc.map (·.1)) = (specInsert e acc).map (·.1)
  | [], _ => rfl
  | d :: ds, hacc => by
    have hd : mapGet blocks d.1 = some d.2 := hacc d (List.mem_cons_self d ds)
    rw [List.map_cons, insertSorted, specInsert,
      cmpTs_of_lookups he hd]
    by_cases hlt : e.2.timestamp < d.2.timestamp
    · rw [if_pos (by omega), if_pos hlt, List.map_cons, List.map_cons]
    · rw [if_neg (by omega), if_neg hlt, List.map_cons]
      rw [insertSorted_comm he ds
        (fun x hx => hacc x (List.mem_cons_of_mem d hx))]

/-- The implementation sort over identifiers is the entry-level
specification sort, projected to identifiers. -/
theorem sortFold_comm {blocks : List (String × Block)} :
    ∀ (l acc : List (String × Block)),
      (∀ d ∈ l, mapGet blocks d.1 = some d.2) →
      (∀ d ∈ acc, mapGet blocks d.1 = some d.2) →
      (l.map (·.1)).foldl (fun a c => insertSorted blocks c a)
          (acc.map (·.1)) =
        (l.foldl (fun a e => specInsert e a) acc).map (·.1)
  | [], acc, _, _ => rfl
  | e :: t, acc, hl, hacc => by
    have he : mapGet blocks e.1 = some e.2 := hl e (List.mem_cons_self e t)
    rw [List.map_cons, List.foldl_cons, List.foldl_cons,
      insertSorted_comm he acc hacc]
    refine sortFold_comm t (specInsert e acc)
      (fun x hx => hl x (List.mem_cons_of_mem e hx)) ?_
    intro d hd
    rcases List.mem_cons.mp ((specInsert_perm e acc).mem_iff.mp hd) with rfl | h
    · exact he
    · exact hacc d h

/-- `sortByTimestamp` is the specification sibling sort projected to
identifiers. -/
theorem sortByTimestamp_comm {blocks : List (String × Block)}
    {l : List (String × Block)}
    (hl : ∀ d ∈ l, mapGet blocks d.1 = some d.2) :
    sortByTimestamp blocks (l.map (·.1)) = (specSortSiblings l).map (·.1) := by
  rw [sortByTimestamp, specSortSiblings]
  exact sortFold_comm l [] hl (by intro d hd; cases hd)

/-- With unique keys, the traversal of `getBlockChain` computes exactly the
reference linearizer, level by level. -/
theorem buildOrderedChain_spec {blocks : List (String × Block)}
    (hnd : (keys blocks).Nodup) :
    ∀ (fuel : Nat) (p : String),
      buildOrderedChain blocks (buildChildrenMap blocks) fuel
        (getCh (buildChildrenMap blocks) p) = specDFS blocks fuel p
  | 0, _ => rfl
  | fuel + 1, p => by
    have hmem : ∀ d ∈ blocks.filter (fun e => e.2.previous == p),
        mapGet blocks d.1 = some d.2 :=
      fun d hd => mapGet_of_nodup hnd (List.mem_of_mem_filter hd)
    rw [buildOrderedChain, getCh_buildChildrenMap,
      sortByTimestamp_comm hmem, specDFS, List.flatMap_map]
    refine List.flatMap_congr ?_
    intro e hein
    have hef : e ∈ blocks.filter (fun x => x.2.previous == p) :=
      (specSortSiblings_perm _).mem_iff.mp hein
    have hlook : mapGet blocks e.1 = some e.2 :=
      mapGet_of_nodup hnd (List.mem_of_mem_filter hef)
    rw [hlook]
    rw [show ((mapGet (buildChildrenMap blocks) e.1).getD [] : List String) =
      getCh (buildChildrenMap blocks) e.1 from rfl]
    rw [buildOrderedChain_spec hnd fuel e.1]

/-- Unfolding of the reference linearizer at positive fuel. -/
theorem specDFS_succ (blocks : List (String × Block)) (fuel : Nat)
    (p : String) :
    specDFS blocks (fuel + 1) p =
      (specSortSiblings
        (blocks.filter (fun e => e.2.previous == p))).flatMap
        (fun e => e :: specDFS blocks fuel e.1) := rfl

/-- A parent no block refers to has an empty traversal. -/
theorem specDFS_no_children {bl : List (String × Block)} {k : String}
    (h : ∀ d ∈ bl, d.2.previous ≠ k) : ∀ f, specDFS bl f k = []
  | 0 => rfl
  | f + 1 => by
    rw [specDFS_succ]
    have hfil : bl.filter (fun e => e.2.previous == k) = [] :=
      List.filter_eq_nil_iff.mpr (fun a ha => by simpa using h a ha)
    rw [hfil]
    rfl

/-- Flat map of the singleton function is the identity. -/
theorem flatMap_pure {α : Type} (l : List α) :
    (l.flatMap fun x => [x]) = l := by
  induction l with
  | nil => rfl
  | cons a t ih => rw [List.flatMap_cons, ih]; rfl

/-- Up to permutation the sibling sort of the linearizer can be dropped. -/
theorem specDFS_succ_perm (bl : List (String × Block)) (fuel : Nat)
    (p : String) :
    (specDFS bl (fuel + 1) p).Perm
      ((bl.filter (fun e => e.2.previous == p)).flatMap
        (fun e => e :: specDFS bl fuel e.1)) := by
  rw [specDFS_succ]
  exact List.Perm.flatMap_right _ (specSortSiblings_perm _)

/-- Filtering a singleton sibling list. -/
theorem filter_prev_singleton (e : String × Block) (p : String) :
    [e].filter (fun d => d.2.previous == p) =
      if e.2.previous = p then [e] else [] := by
  by_cases hp : e.2.previous = p
  · rw [List.filter_cons_of_pos (by simpa using hp), if_pos hp]
    rfl
  · rw [List.filter_cons_of_neg (by simpa using hp), if_neg hp]
    rfl

/-- Unfolding a flat map over the linearizer output into one level of
children, up to permutation. -/
theorem specDFS_flatMap_split (l : List (String × Block)) (f : Nat)
    (p : String) (g : String × Block → List (String × Block)) :
    ((specDFS l (f + 1) p).flatMap g).Perm
      ((l.filter (fun d => d.2.previous == p)).flatMap
        (fun d => g d ++ (specDFS l f d.1).flatMap g)) := by
  refine (List.Perm.flatMap_right g (specDFS_succ_perm l f p)).trans ?_
  rw [List.flatMap_assoc]
  refine List.Perm.of_eq (List.flatMap_congr ?_)
  intro d _
  rw [List.flatMap_cons]

/-- Appending one entry nothing refers to adds, up to permutation, one copy
of that entry for every visit of its parent (the parent itself or any
emitted block whose key is the parent). -/
theorem specDFS_snoc_perm {l : List (String × Block)} {e : String × Block}
    (hpt : ∀ d ∈ l ++ [e], d.2.previous ≠ e.1) :
    ∀ (f : Nat) (p : String),
      (specDFS (l ++ [e]) (f + 1) p).Perm
        (specDFS l (f + 1) p ++
          ((if e.2.previous = p then [e] else []) ++
            (specDFS l f p).flatMap
              (fun d => if e.2.previous = d.1 then [e] else []))) := by
  intro f
  induction f with
  | zero =>
    intro p
    have hL : (specDFS (l ++ [e]) 1 p).Perm
        (l.filter (fun d => d.2.previous == p) ++
          (if e.2.previous = p then [e] else [])) := by
      refine (specDFS_succ_perm _ 0 p).trans ?_
      rw [show (((l ++ [e]).filter (fun d => d.2.previous == p)).flatMap
          (fun d => d :: specDFS (l ++ [e]) 0 d.1)) =
        (((l ++ [e]).filter (fun d => d.2.previous == p)).flatMap
          (fun d => [d])) from rfl, flatMap_pure, List.filter_append,
        filter_prev_singleton]
    have h1 : (specDFS l 1 p).Perm
        (l.filter (fun d => d.2.previous == p)) := by
      refine (specDFS_succ_perm l 0 p).trans ?_
      rw [show ((l.filter (fun d => d.2.previous == p)).flatMap
          (fun d => d :: specDFS l 0 d.1)) =
        ((l.filter (fun d => d.2.previous == p)).flatMap
          (fun d => [d])) from rfl, flatMap_pure]
    show (specDFS (l ++ [e]) 1 p).Perm
      (specDFS l 1 p ++ ((if e.2.previous = p then [e] else []) ++ []))
    rw [List.append_nil]
    exact hL.trans (List.Perm.append h1.symm (List.Perm.refl _))
  | succ f ihf =>
    intro p
    have hA : (specDFS (l ++ [e]) (f + 2) p).Perm
        ((l.filter (fun d => d.2.previous == p)).flatMap
            (fun d => d :: specDFS (l ++ [e]) (f + 1) d.1) ++
          (if e.2.previous = p then [e] else [])) := by
      refine (specDFS_succ_perm _ (f + 1) p).trans ?_
      rw [List.filter_append, filter_prev_singleton, List.flatMap_append]
      refine List.Perm.append_left _ (List.Perm.of_eq ?_)
      by_cases hp : e.2.previous = p
      · rw [if_pos hp, List.flatMap_cons, specDFS_no_children hpt (f + 1),
          List.flatMap_nil, List.append_nil]
      · rw [if_neg hp]
        rfl
    have hB : ((l.filter (fun d => d.2.previous == p)).flatMap
          (fun d => d :: specDFS (l ++ [e]) (f + 1) d.1)).Perm
        ((l.filter (fun d => d.2.previous == p)).flatMap
          (fun d => (d :: specDFS l (f + 1) d.1) ++
            ((if e.2.previous = d.1 then [e] else []) ++
              (specDFS l f d.1).flatMap
                (fun x => if e.2.previous = x.1 then [e] else [])))) :=
      List.Perm.flatMap_left _ (fun d _ => (ihf d.1).cons d)
    have hC := flatMap_append_distrib_perm
      (l.filter (fun d => d.2.previous == p))
      (fun d => d :: specDFS l (f + 1) d.1)
      (fun d => (if e.2.previous = d.1 then [e] else []) ++
        (specDFS l f d.1).flatMap
          (fun x => if e.2.previous = x.1 then [e] else []))
    have hD : ((l.filter (fun d => d.2.previous == p)).flatMap
          (fun d => d :: specDFS l (f + 1) d.1)).Perm
        (specDFS l (f + 2) p) := (specDFS_succ_perm l (f + 1) p).symm
    have hE : ((l.filter (fun d => d.2.previous == p)).flatMap
          (fun d => (if e.2.previous = d.1 then [e] else []) ++
            (specDFS l f d.1).flatMap
              (fun x => if e.2.previous = x.1 then [e] else []))).Perm
        ((specDFS l (f + 1) p).flatMap
          (fun x => if e.2.previous = x.1 then [e] else [])) := by
      refine (specDFS_flatMap_split l f p
        (fun x => if e.2.previous = x.1 then [e] else [])).symm
    refine (hA.trans (List.Perm.append (hB.trans (hC.trans
      (List.Perm.append hD hE))) (List.Perm.refl _))).trans ?_
    rw [List.append_assoc]
    refine List.Perm.append_left _ ?_
    exact List.perm_append_comm

/-- Every entry of a grounded block map is emitted exactly once by the
reference linearizer, given enough fuel. -/
theorem specDFS_cover {bl : List (String × Block)} (hg : Grounded bl) :
    ∀ f, bl.length + 1 ≤ f → (specDFS bl f "").Perm bl := by
  induction hg with
  | nil =>
    intro f hf
    match f, hf with
    | f + 1, _ =>
      rw [show specDFS [] (f + 1) "" = [] from rfl]
  | @snoc l k b hl hb hk hke ih =>
    intro f hf
    match f, hf with
    | f + 1, hf =>
      rw [List.length_append, List.length_singleton] at hf
      have hf1 : l.length + 1 ≤ f + 1 := by omega
      have hf0 : l.length + 1 ≤ f := by omega
      have hpt : ∀ d ∈ l ++ [(k, b)], d.2.previous ≠ k :=
        prev_ne_new hl hb hk hke
      refine (specDFS_snoc_perm hpt f "").trans ?_
      have hIH1 : (specDFS l (f + 1) "").Perm l := ih (f + 1) hf1
      have hIH0 : (specDFS l f "").Perm l := ih f hf0
      have hflat : ((specDFS l f "").flatMap
            (fun d => if (k, b).2.previous = d.1 then [(k, b)] else [])).Perm
          (l.flatMap
            (fun d => if (k, b).2.previous = d.1 then [(k, b)] else [])) :=
        List.Perm.flatMap_right _ hIH0
      rcases hb with hb | hb
      · have hife : (if (k, b).2.previous = "" then [(k, b)] else []) =
            [(k, b)] := if_pos hb
        have hnil : (l.flatMap
            (fun d => if (k, b).2.previous = d.1 then [(k, b)] else [])) =
            [] := by
          rw [List.flatMap_eq_nil_iff]
          intro d hd
          rw [if_neg]
          intro hc
          refine hl.empty_not_key ?_
          rw [hb] at hc
          rw [hc]
          simpa [keys] using List.mem_map_of_mem (·.1) hd
        refine (List.Perm.append hIH1
          (List.Perm.append (List.Perm.refl _) (hflat.trans
            (List.Perm.of_eq hnil)))).trans ?_
        rw [hife, List.append_nil]
      · have hbne : (k, b).2.previous ≠ "" := by
          intro hc
          exact hl.empty_not_key (hc ▸ hb)
        have hife : (if (k, b).2.previous = "" then [(k, b)] else []) =
            [] := if_neg hbne
        have hone : (l.flatMap
            (fun d => if (k, b).2.previous = d.1 then [(k, b)] else [])) =
            [(k, b)] := flatMap_single_key hl.nodupKeys hb (k, b)
        refine (List.Perm.append hIH1
          (List.Perm.append (List.Perm.refl _) (hflat.trans
            (List.Perm.of_eq hone)))).trans ?_
        rw [hife, List.nil_append]

/-- On stores reached with fresh identifiers, the entry traversal of
`getBlockChain` computes exactly the reference linearizer. -/
theorem getBlockChainEntries_spec {st : Store} (h : ReachableF st) :
    getBlockChainEntries st =
      specDFS st.blocks (st.blocks.length + 1) "" := by
  have hg := reachF_grounded h
  rcases reachable_shape h.toReachable with ⟨hh, hb⟩ | ⟨⟨t, r, hh⟩, hb⟩
  · rw [getBlockChainEntries, hh, hb]
    rfl
  · rw [getBlockChainEntries, hh]
    have hne : ((mkCid t r == "") : Bool) = false :=
      beq_eq_false_iff_ne.mpr (mkCid_ne_empty t r)
    have hlen : ((st.blocks.length == 0) : Bool) = false := by
      refine beq_eq_false_iff_ne.mpr ?_
      simpa [List.length_eq_zero] using hb
    simp only [hne, hlen, Bool.or_self, Bool.false_or, Bool.false_eq_true,
      if_false]
    exact buildOrderedChain_spec hg.nodupKeys (st.blocks.length + 1) ""

/-- The reference linearizer on a three-block path emits the path in
order, whatever the timestamps are (each sibling set is a singleton). -/
theorem specDFS_path3 {c1 c2 c3 : String} {b1 b2 b3 : Block}
    (h1 : b1.previous = "") (h2 : b2.previous = c1) (h3 : b3.previous = c2)
    (hc1 : c1 ≠ "") (hc2 : c2 ≠ "") (hc3 : c3 ≠ "")
    (h12 : c1 ≠ c2) (h13 : c1 ≠ c3) (h23 : c2 ≠ c3) :
    specDFS [(c1, b1), (c2, b2), (c3, b3)] 4 "" =
      [(c1, b1), (c2, b2), (c3, b3)] := by
  have f1 : ((c1 : String) == "") = false := beq_eq_false_iff_ne.mpr hc1
  have f2 : ((c2 : String) == "") = false := beq_eq_false_iff_ne.mpr hc2
  have f3 : ((c3 : String) == "") = false := beq_eq_false_iff_ne.mpr hc3
  have g1 : (("" : String) == c1) = false :=
    beq_eq_false_iff_ne.mpr (fun h => hc1 h.symm)
  have g2 : (("" : String) == c2) = false :=
    beq_eq_false_iff_ne.mpr (fun h => hc2 h.symm)
  have g3 : (("" : String) == c3) = false :=
    beq_eq_false_iff_ne.mpr (fun h => hc3 h.symm)
  have k12 : ((c1 : String) == c2) = false := beq_eq_false_iff_ne.mpr h12
  have k21 : ((c2 : String) == c1) = false :=
    beq_eq_false_iff_ne.mpr (fun h => h12 h.symm)
  have k13 : ((c1 : String) == c3) = false := beq_eq_false_iff_ne.mpr h13
  have k23 : ((c2 : String) == c3) = false := beq_eq_false_iff_ne.mpr h23
  simp [specDFS, specSortSiblings, specInsert, List.filter, h1, h2, h3,
    f1, f2, f3, g1, g2, g3, k12, k21, k13, k23]

/-- Root block adding follower `x`, for concrete runs. -/
def reAddB1 : Block := ⟨"", 1, "op", "sig", .profile (.addFollowing "x")⟩

/-- Child block removing follower `x` again. -/
def reAddB2 : Block :=
  ⟨mkCid 1 "a", 2, "op", "sig", .profile (.removeFollowing "x")⟩

/-- Fresh store owned by `op` with the always-true verifier. -/
def reAddSt0 : Store := Store.init vTrue "op"

/-- Store after appending `reAddB1`. -/
def reAddSt1 : Store := (addBlock reAddSt0 1 "a" reAddB1).toOption.getD reAddSt0

/-- Store after appending `reAddB2`. -/
def reAddSt2 : Store := (addBlock reAddSt1 2 "b" reAddB2).toOption.getD reAddSt0

/-- Store after re-appending `reAddB1` (the generator yields a new
identifier, as wall clock plus randomness always does). -/
def reAddSt3 : Store := (addBlock reAddSt2 3 "c" reAddB1).toOption.getD reAddSt0

/-- C2: the claim fails on the code.  Re-adding an identical block is
accepted, but the store keys it under a newly generated identifier instead
of overwriting, so the duplicated block enters the chain a second time and
the profile projection changes: `following` flips from `[]` to `["x"]`.
This evaluates the code at the failing input of the report. -/
theorem readd_changes_profile_state :
    (addBlock reAddSt0 1 "a" reAddB1).isOk = true ∧
    (addBlock reAddSt1 2 "b" reAddB2).isOk = true ∧
    (addBlock reAddSt2 3 "c" reAddB1).isOk = true ∧
    getProfileState reAddSt2 = .ok ⟨"", "", none, []⟩ ∧
    getProfileState reAddSt3 = .ok ⟨"", "", none, ["x"]⟩ := by
  refine ⟨rfl, rfl, rfl, ?_, ?_⟩ <;> rfl

/-- Root block used to exhibit the store-generated key. -/
def ownKeyBlock : Block := ⟨"", 1, "op", "sig", .profile (.setUsername "u")⟩

/-- C3: the claim fails on the code.  `addBlock` has no content-identifier
parameter at all; the accepted block is stored under the generated mock
identifier `block_5_abc` (wall clock 5, random suffix `abc`), not under any
caller-supplied key. -/
theorem store_generates_own_key :
    (addBlock (Store.init vTrue "op") 5 "abc" ownKeyBlock).toOption.map
        (fun st => (keys st.blocks, st.headCid)) =
      some (["block_5_abc"], some "block_5_abc") := by decide

/-- C4 counterexample: on a store holding zero blocks both projections
throw `No blocks found` instead of returning the default states. -/
theorem empty_store_throws :
    getProfileState (Store.init vTrue "op") = .error .noBlocks ∧
    getTimelineState (Store.init vTrue "op") = .error .noBlocks := ⟨rfl, rfl⟩

/-- C4 (amended): for every reachable store holding zero blocks, both
projections signal the EmptyLog condition (the `No blocks found` error)
rather than returning the default states. -/
theorem empty_reachable_store_errors (st : Store) (h : Reachable st)
    (he : st.blocks = []) :
    getProfileState st = .error .noBlocks ∧
    getTimelineState st = .error .noBlocks := by
  have hh : st.headCid = none := by
    rcases reachable_shape h with ⟨hh, _⟩ | ⟨_, hb⟩
    · exact hh
    · exact absurd he hb
  constructor
  · rw [getProfileState, hh]
  · rw [getTimelineState, hh]

/-- Witness for the amended C4 at the freshly constructed store. -/
theorem empty_reachable_store_errors_witness :
    getProfileState (Store.init vTrue "w") = .error .noBlocks ∧
    getTimelineState (Store.init vTrue "w") = .error .noBlocks :=
  empty_reachable_store_errors _ (Reachable.init vTrue "w") rfl

/-- C5: a block from the right operator whose nonempty `previous` is not a
key of the block set is rejected with the `Previous block ... not found`
error naming that identifier, for every verifier (the verifier is reached
only after this check); a root block (empty `previous`) never produces this
error. -/
theorem missing_ancestor_check (st : Store) (now : Nat) (rand : String)
    (b : Block) :
    (b.operator = st.operatorId → b.previous ≠ "" →
      mapHas st.blocks b.previous = false →
      addBlock st now rand b = .error (.previousNotFound b.previous)) ∧
    (b.previous = "" →
      ∀ p, addBlock st now rand b ≠ .error (.previousNotFound p)) := by
  constructor
  · intro hop hne hhas
    rw [addBlock, if_neg (by simp [hop]),
      if_pos (by simp [bne_iff_ne, hne, hhas])]
  · intro hroot p
    rw [addBlock]
    by_cases h1 : (b.operator != st.operatorId) = true
    · rw [if_pos h1]; simp
    · rw [if_neg h1, if_neg (by simp [hroot])]
      by_cases h3 : (!(st.verifier b.unsigned b.signature b.operator)) = true
      · rw [if_pos h3]; simp
      · rw [if_neg h3]; simp

/-- Witness for C5 at a concrete store and block. -/
theorem missing_ancestor_check_witness :
    addBlock (Store.init vTrue "op") 1 "r"
        ⟨"missing", 0, "op", "sig", .profile (.setBio "x")⟩ =
      .error (.previousNotFound "missing") :=
  (missing_ancestor_check (Store.init vTrue "op") 1 "r"
    ⟨"missing", 0, "op", "sig", .profile (.setBio "x")⟩).1 rfl
    (by decide) rfl

/-- C6 counterexample: a block whose operator is the owning identity
written in a different hex letter case is rejected by the operator check,
although the two spellings agree after lowercasing. -/
theorem case_differing_operator_rejected :
    addBlock (Store.init vTrue "0xAB") 1 "r"
        ⟨"", 0, "0xab", "sig", .profile (.setBio "x")⟩ =
      .error (.operatorMismatch "0xab" "0xAB") ∧
    strLower "0xab" = strLower "0xAB" := ⟨rfl, by decide⟩

/-- C6 (amended): `addBlock` fails with the operator-mismatch error naming
the block operator and the owning identity exactly when the two are not
equal as strings; the comparison is case-sensitive. -/
theorem operator_mismatch_iff_strict (st : Store) (now : Nat) (rand : String)
    (b : Block) :
    addBlock st now rand b =
        .error (.operatorMismatch b.operator st.operatorId) ↔
      b.operator ≠ st.operatorId := by
  constructor
  · intro h hpeq
    rw [addBlock, if_neg (by simp [hpeq])] at h
    by_cases h2 : (b.previous != "" && !(mapHas st.blocks b.previous)) = true
    · rw [if_pos h2] at h; simp at h
    · rw [if_neg h2] at h
      by_cases h3 : (!(st.verifier b.unsigned b.signature b.operator)) = true
      · rw [if_pos h3] at h; simp at h
      · rw [if_neg h3] at h; simp at h
  · intro hne
    rw [addBlock, if_pos (by simp [bne_iff_ne, hne])]

/-- C8: the verifier wrapper is total (the embedding of the `try`/`catch`
is the `Option` returned by the abstract recovery primitive, so no
exception escapes), returns `false` whenever recovery fails, and accepts
exactly when the recovered address equals the claimed address after
lowercasing both. -/
theorem verify_accepts_iff (recover : String → String → Option String)
    (data signature address : String) :
    EthereumVerifier.verify recover data signature address = true ↔
      ∃ r, recover data signature = some r ∧
        strLower r = strLower address := by
  cases h : recover data signature with
  | none => simp [EthereumVerifier.verify, h]
  | some r => simp [EthereumVerifier.verify, h]

/-- C10: on every reachable store, the head pointer is absent exactly when
the block map is empty, and each projection throws `No blocks found`
exactly in that state; moreover every successful `addBlock` leaves the
block map nonempty, so the error occurs exactly when no append has ever
succeeded on the instance. -/
theorem head_and_errors_iff_empty (st : Store) (h : Reachable st) :
    (st.headCid = none ↔ st.blocks = []) ∧
    (getProfileState st = .error .noBlocks ↔ st.blocks = []) ∧
    (getTimelineState st = .error .noBlocks ↔ st.blocks = []) ∧
    (∀ (now : Nat) (rand : String) (b : Block) (st' : Store),
      addBlock st now rand b = .ok st' → st'.blocks ≠ []) := by
  have hshape := reachable_shape h
  refine ⟨?_, ?_, ?_, ?_⟩
  · rcases hshape with ⟨hh, hb⟩ | ⟨⟨t, r, hh⟩, hb⟩
    · simp [hh, hb]
    · rw [hh]; simp [hb]
  · rcases hshape with ⟨hh, hb⟩ | ⟨⟨t, r, hh⟩, hb⟩
    · rw [getProfileState, hh]; simp [hb]
    · rw [getProfileState, hh]
      have hne : ((mkCid t r == "") : Bool) = false :=
        beq_eq_false_iff_ne.mpr (mkCid_ne_empty t r)
      simp [hne, hb]
  · rcases hshape with ⟨hh, hb⟩ | ⟨⟨t, r, hh⟩, hb⟩
    · rw [getTimelineState, hh]; simp [hb]
    · rw [getTimelineState, hh]
      have hne : ((mkCid t r == "") : Bool) = false :=
        beq_eq_false_iff_ne.mpr (mkCid_ne_empty t r)
      simp [hne, hb]
  · intro now rand b st' hok
    rcases addBlock_ok_inv hok with ⟨-, -, -, hst⟩
    rw [hst]
    exact mapSet_ne_nil _ _ _

/-- Witness for C10 at the freshly constructed store. -/
theorem head_and_errors_iff_empty_witness :
    ((Store.init vTrue "z").headCid = none ↔
      (Store.init vTrue "z").blocks = []) ∧
    (getProfileState (Store.init vTrue "z") = .error .noBlocks ↔
      (Store.init vTrue "z").blocks = []) ∧
    (getTimelineState (Store.init vTrue "z") = .error .noBlocks ↔
      (Store.init vTrue "z").blocks = []) ∧
    (∀ (now : Nat) (rand : String) (b : Block) (st' : Store),
      addBlock (Store.init vTrue "z") now rand b = .ok st' →
        st'.blocks ≠ []) :=
  head_and_errors_iff_empty (Store.init vTrue "z")
    (Reachable.init vTrue "z")

/-- The head of a two-block chain in the blob store: its parent is `cidB`. -/
def chainHeadBlock : Block := ⟨"cidB", 2, "op", "sig", .timeline (.addNote "n1")⟩

/-- The root of the two-block chain. -/
def chainRootBlock : Block := ⟨"", 1, "op", "sig", .profile (.setUsername "u")⟩

/-- A blob store holding the two-block chain `cidA → cidB`. -/
def chainBlob : List (String × Block) :=
  [("cidA", chainHeadBlock), ("cidB", chainRootBlock)]

/-- C7: the claim fails on the code.  Replicating the two-block chain from
its announced head visits only one content identifier and aborts: the walk
adds the newest block first, whose `previous` is not yet in the store, so
`addBlock` throws the missing-ancestor error and the recursion never
reaches the root. -/
theorem sync_aborts_and_visits_one :
    (processUserline chainBlob 3 [(1, "a"), (2, "b")] (Store.init vTrue "op")
        "cidA").1 =
      .error (.addFailed (.previousNotFound "cidB")) ∧
    (processUserline chainBlob 3 [(1, "a"), (2, "b")] (Store.init vTrue "op")
        "cidA").2 = ["cidA"] ∧
    chainBlob.length = 2 := ⟨rfl, rfl, rfl⟩

/-- Root block of the collision run. -/
def cycleB1 : Block := ⟨"", 1, "op", "sig", .profile (.setUsername "a")⟩

/-- Child of the first generated identifier. -/
def cycleB2 : Block := ⟨mkCid 1 "r", 2, "op", "sig", .profile (.setBio "b")⟩

/-- Child of the second generated identifier; it overwrites the root when
the generator repeats `(1, "r")`. -/
def cycleB3 : Block := ⟨mkCid 2 "s", 3, "op", "sig", .profile (.setBio "c")⟩

/-- Fresh store for the collision run. -/
def cycleSt0 : Store := Store.init vTrue "op"

/-- Store after the first append. -/
def cycleSt1 : Store := (addBlock cycleSt0 1 "r" cycleB1).toOption.getD cycleSt0

/-- Store after the second append. -/
def cycleSt2 : Store := (addBlock cycleSt1 2 "s" cycleB2).toOption.getD cycleSt0

/-- Store after the third append, whose generated identifier collides with
the first one. -/
def cycleSt3 : Store := (addBlock cycleSt2 1 "r" cycleB3).toOption.getD cycleSt0

/-- C1 counterexample: three successful `addBlock` calls (so the store is
reachable, and every stored `previous` is a present key) whose third
generated identifier collides with the first.  The overwrite rewires the
parent graph into a two-cycle unreachable from the root, and
`getBlockChain` returns the empty sequence although two blocks are
stored — not every stored block appears. -/
theorem colliding_cid_loses_blocks :
    (addBlock cycleSt0 1 "r" cycleB1).isOk = true ∧
    (addBlock cycleSt1 2 "s" cycleB2).isOk = true ∧
    (addBlock cycleSt2 1 "r" cycleB3).isOk = true ∧
    cycleSt3.blocks.length = 2 ∧
    getBlockChain cycleSt3 = [] := by
  refine ⟨rfl, rfl, rfl, rfl, rfl⟩

/-- C1 (amended): on every block set reachable through successful
`addBlock` calls whose generated identifiers are fresh (never colliding
with a key already present — the intent of the wall-clock plus randomness
identifiers), `getBlockChain` emits every stored block exactly once, and
the emitted order is exactly the reference depth-first,
parent-before-children traversal from the root sentinel with every sibling
set stably sorted by ascending timestamp. -/
theorem chain_is_complete_ordered_line (st : Store) (h : ReachableF st) :
    (getBlockChain st).Perm (st.blocks.map (·.2)) ∧
    getBlockChain st = specLine st.blocks := by
  have hentries := getBlockChainEntries_spec h
  have hcover := specDFS_cover (reachF_grounded h) (st.blocks.length + 1)
    (Nat.le_refl _)
  constructor
  · rw [getBlockChain, hentries]
    exact hcover.map _
  · rw [getBlockChain, hentries, specLine]

/-- Root block of the witness chain. -/
def wChainB1 : Block := ⟨"", 1, "wop", "sig", .profile (.setUsername "w")⟩

/-- Child block of the witness chain. -/
def wChainB2 : Block := ⟨mkCid 1 "w", 2, "wop", "sig", .profile (.setBio "z")⟩

/-- Witness store holding the root block. -/
def wChainSt1 : Store :=
  ⟨vTrue, [(mkCid 1 "w", wChainB1)], some (mkCid 1 "w"), "wop"⟩

/-- Witness store holding the two-block chain. -/
def wChainSt2 : Store :=
  ⟨vTrue, [(mkCid 1 "w", wChainB1), (mkCid 2 "w", wChainB2)],
    some (mkCid 2 "w"), "wop"⟩

/-- Witness for the amended C1 at a concrete two-block store. -/
theorem chain_is_complete_ordered_line_witness :
    (getBlockChain wChainSt2).Perm (wChainSt2.blocks.map (·.2)) ∧
    getBlockChain wChainSt2 = specLine wChainSt2.blocks := by
  have h1 : addBlock (Store.init vTrue "wop") 1 "w" wChainB1 =
      .ok wChainSt1 := rfl
  have h2 : addBlock wChainSt1 2 "w" wChainB2 = .ok wChainSt2 := rfl
  have hf1 : mkCid 1 "w" ∉ keys (Store.init vTrue "wop").blocks := by decide
  have hf2 : mkCid 2 "w" ∉ keys wChainSt1.blocks := by decide
  exact chain_is_complete_ordered_line wChainSt2
    (ReachableF.step (ReachableF.step (ReachableF.init vTrue "wop") hf1 h1)
      hf2 h2)

/-- C9: after successfully appending a root PROFILE block setting username
`a`, its child setting bio `b`, and that child's child adding following
`u1` — three distinct stored blocks — `getProfileState` returns username
`a`, bio `b`, no avatar, and following list `["u1"]`, for every verifier,
owner, timestamps, signatures, and generator outcomes. -/
theorem three_block_profile_scenario (v : Verifier) (oid r1 r2 r3 : String)
    (n1 n2 n3 : Nat) (b1 b2 b3 : Block) (st1 st2 st3 : Store)
    (hd1 : b1.data = .profile (.setUsername "a"))
    (hd2 : b2.data = .profile (.setBio "b"))
    (hd3 : b3.data = .profile (.addFollowing "u1"))
    (hp1 : b1.previous = "")
    (hp2 : b2.previous = mkCid n1 r1)
    (hp3 : b3.previous = mkCid n2 r2)
    (hb1 : addBlock (Store.init v oid) n1 r1 b1 = .ok st1)
    (hb2 : addBlock st1 n2 r2 b2 = .ok st2)
    (hb3 : addBlock st2 n3 r3 b3 = .ok st3)
    (hlen : st3.blocks.length = 3) :
    getProfileState st3 = .ok ⟨"a", "b", none, ["u1"]⟩ := by
  obtain ⟨-, -, -, hst1⟩ := addBlock_ok_inv hb1
  obtain ⟨-, -, -, hst2⟩ := addBlock_ok_inv hb2
  obtain ⟨-, -, -, hst3⟩ := addBlock_ok_inv hb3
  have hbl1 : st1.blocks = [(mkCid n1 r1, b1)] := by rw [hst1]; rfl
  have hbl2 : st2.blocks = mapSet [(mkCid n1 r1, b1)] (mkCid n2 r2) b2 := by
    rw [hst2, hbl1]
  have hbl3 : st3.blocks =
      mapSet (mapSet [(mkCid n1 r1, b1)] (mkCid n2 r2) b2)
        (mkCid n3 r3) b3 := by
    rw [hst3, hbl2]
  rw [hbl3, length_mapSet, length_mapSet] at hlen
  by_cases hA : mapHas [(mkCid n1 r1, b1)] (mkCid n2 r2) = true
  · rw [if_pos hA] at hlen
    by_cases hB : mapHas (mapSet [(mkCid n1 r1, b1)] (mkCid n2 r2) b2)
        (mkCid n3 r3) = true
    · rw [if_pos hB] at hlen; simp at hlen
    · rw [if_neg hB] at hlen; simp at hlen
  by_cases hB : mapHas (mapSet [(mkCid n1 r1, b1)] (mkCid n2 r2) b2)
      (mkCid n3 r3) = true
  · rw [if_neg hA, if_pos hB] at hlen; simp at hlen
  rw [if_neg hA, if_neg hB] at hlen
  have hfA : mapHas [(mkCid n1 r1, b1)] (mkCid n2 r2) = false :=
    Bool.eq_false_iff.mpr hA
  have hfB : mapHas (mapSet [(mkCid n1 r1, b1)] (mkCid n2 r2) b2)
      (mkCid n3 r3) = false := Bool.eq_false_iff.mpr hB
  have hbl2x : st2.blocks = [(mkCid n1 r1, b1), (mkCid n2 r2, b2)] := by
    rw [hbl2, mapSet_of_not_has hfA]
    rfl
  have hfB2 : mapHas [(mkCid n1 r1, b1), (mkCid n2 r2, b2)]
      (mkCid n3 r3) = false := by
    rw [mapSet_of_not_has hfA] at hfB
    exact hfB
  have hbl3x : st3.blocks =
      [(mkCid n1 r1, b1), (mkCid n2 r2, b2), (mkCid n3 r3, b3)] := by
    rw [hbl3, mapSet_of_not_has hfB, mapSet_of_not_has hfA]
    rfl
  have hne21 : mkCid n2 r2 ∉ keys [(mkCid n1 r1, b1)] :=
    (mapHas_eq_false _ _).mp hfA
  have hkeys3 : mkCid n3 r3 ∉
      keys [(mkCid n1 r1, b1), (mkCid n2 r2, b2)] :=
    (mapHas_eq_false _ _).mp hfB2
  have h12 : mkCid n1 r1 ≠ mkCid n2 r2 := by
    intro hc
    refine hne21 ?_
    simp only [keys_cons, keys_nil, List.mem_singleton]
    exact hc.symm
  have h13 : mkCid n1 r1 ≠ mkCid n3 r3 := by
    intro hc
    refine hkeys3 ?_
    simp only [keys_cons, keys_nil, List.mem_cons]
    exact Or.inl hc.symm
  have h23 : mkCid n2 r2 ≠ mkCid n3 r3 := by
    intro hc
    refine hkeys3 ?_
    simp only [keys_cons, keys_nil, List.mem_cons]
    exact Or.inr (Or.inl hc.symm)
  have hre : ReachableF st3 := by
    refine ReachableF.step (ReachableF.step (ReachableF.step
      (ReachableF.init v oid) ?_ hb1) ?_ hb2) ?_ hb3
    · intro hc; cases hc
    · rw [hbl1]; exact hne21
    · rw [hbl2x]; exact hkeys3
  have hentries := getBlockChainEntries_spec hre
  rw [hbl3x] at hentries
  rw [show ([(mkCid n1 r1, b1), (mkCid n2 r2, b2), (mkCid n3 r3, b3)] :
      List (String × Block)).length + 1 = 4 from rfl] at hentries
  rw [specDFS_path3 hp1 hp2 hp3 (mkCid_ne_empty n1 r1)
    (mkCid_ne_empty n2 r2) (mkCid_ne_empty n3 r3) h12 h13 h23] at hentries
  have hchain : getBlockChain st3 = [b1, b2, b3] := by
    rw [getBlockChain, hentries]
    rfl
  have hh3 : st3.headCid = some (mkCid n3 r3) := by rw [hst3]
  rw [getProfileState, hh3]
  have hne : ((mkCid n3 r3 == "") : Bool) = false :=
    beq_eq_false_iff_ne.mpr (mkCid_ne_empty n3 r3)
  simp only [hne, Bool.false_eq_true, if_false]
  rw [hchain]
  simp [applyProfileOperation, hd1, hd2, hd3]

/-- Root PROFILE block of the witness scenario. -/
def wProfB1 : Block := ⟨"", 1, "op", "s1", .profile (.setUsername "a")⟩

/-- Child PROFILE block of the witness scenario. -/
def wProfB2 : Block := ⟨mkCid 1 "x", 2, "op", "s2", .profile (.setBio "b")⟩

/-- Grandchild PROFILE block of the witness scenario. -/
def wProfB3 : Block :=
  ⟨mkCid 2 "y", 3, "op", "s3", .profile (.addFollowing "u1")⟩

/-- Witness store after the first append. -/
def wProfSt1 : Store :=
  ⟨vTrue, [(mkCid 1 "x", wProfB1)], some (mkCid 1 "x"), "op"⟩

/-- Witness store after the second append. -/
def wProfSt2 : Store :=
  ⟨vTrue, [(mkCid 1 "x", wProfB1), (mkCid 2 "y", wProfB2)],
    some (mkCid 2 "y"), "op"⟩

/-- Witness store after the third append. -/
def wProfSt3 : Store :=
  ⟨vTrue, [(mkCid 1 "x", wProfB1), (mkCid 2 "y", wProfB2),
    (mkCid 3 "z", wProfB3)], some (mkCid 3 "z"), "op"⟩

/-- Witness for C9 at a concrete three-block scenario. -/
theorem three_block_profile_scenario_witness :
    getProfileState wProfSt3 = .ok ⟨"a", "b", none, ["u1"]⟩ := by
  have h1 : addBlock (Store.init vTrue "op") 1 "x" wProfB1 =
      .ok wProfSt1 := rfl
  have h2 : addBlock wProfSt1 2 "y" wProfB2 = .ok wProfSt2 := rfl
  have h3 : addBlock wProfSt2 3 "z" wProfB3 = .ok wProfSt3 := rfl
  exact three_block_profile_scenario vTrue "op" "x" "y" "z" 1 2 3
    wProfB1 wProfB2 wProfB3 wProfSt1 wProfSt2 wProfSt3
    rfl rfl rfl rfl rfl rfl h1 h2 h3 rfl

end MultiVerse
